/-
Verification development for the word-chains daily puzzle system.

The development shallowly embeds the TypeScript/JavaScript sources:
  * `web/src/lib/game-utils.ts` (seeded PRNG, Fisher-Yates shuffle, guess
    validation) — section `GameUtils`;
  * `web/scripts/validate-puzzles.mjs` (the per-row candidate validator) —
    section `Validator`;
  * the daily-assignment branch of the `next-puzzle` route (rotation,
    similarity guard, idempotent ledger insert) — section `Scheduler`;
  * the date helpers `dayIndexFromKey` / `dayNumberFromKey` — section `Dates`.

JavaScript 32-bit integer values are represented by their unsigned bit
patterns as `Nat`s below `2^32 = 4294967296`; every operation that JavaScript
coerces with ToInt32/ToUint32 is followed by an explicit `% 4294967296`.
A second, independent model of the shuffle written with signed 32-bit
integers (`Int` plus explicit truncation) follows the specification's own
wording and is compared with the source embedding.
-/
import Mathlib

namespace WordChains

set_option maxRecDepth 100000

/-! ## JavaScript numeric primitives (unsigned-pattern model) -/

/-- The modulus of 32-bit machine arithmetic. -/
def u32Mod : Nat := 4294967296

/-- `Math.imul`: 32-bit multiplication, as the bit pattern of the result. -/
def imul32 (a b : Nat) : Nat := (a * b) % u32Mod

/-- JavaScript `>>> k` (unsigned right shift) on a 32-bit pattern. -/
def shr32 (a : Nat) (k : Nat) : Nat := a / 2 ^ k

/-! ## `game-utils.ts` : seeded PRNG, shuffle and guess validation -/

/-- `hashString` from `game-utils.ts`:
`hash = (hash << 5) - hash + input.charCodeAt(i); hash |= 0` per character.
`(hash << 5) - hash = 31 * hash`, and `|= 0` truncates to int32, so the
bit pattern of the running hash is folded by `(31 * h + c) % 2^32`. -/
def hashString (input : String) : Nat :=
  input.toList.foldl (fun h c => (31 * h + c.toNat) % u32Mod) 0

/-- One draw of the generator returned by `mulberry32` in `game-utils.ts`.
The closure keeps `t` across calls and *reassigns* it with the mixed value:
`t = Math.imul(t ^ (t >>> 15), t | 1); t ^= t + Math.imul(t ^ (t >>> 7), t | 61);
return ((t ^ (t >>> 14)) >>> 0) / 4294967296`.
Returns `(new state, numerator of the draw)`: the draw is `out / 2^32`. -/
def mulberryStep (t : Nat) : Nat × Nat :=
  let t1 := imul32 (Nat.xor t (shr32 t 15)) (Nat.lor t 1)
  let t2 := Nat.xor t1 ((t1 + imul32 (Nat.xor t1 (shr32 t1 7)) (Nat.lor t1 61)) % u32Mod)
  (t2, Nat.xor t2 (shr32 t2 14))

/-- The swap `[arr[i], arr[j]] = [arr[j], arr[i]]`: both cells are read
before either is written.  Out-of-range indices never occur in the loop. -/
def listSwap {α : Type} (arr : List α) (i j : Nat) : List α :=
  match arr[i]?, arr[j]? with
  | some a, some b => (arr.set i b).set j a
  | _, _ => arr

/-- The Fisher-Yates loop of `seededShuffle`:
`for (let i = arr.length - 1; i > 0; i -= 1) { const j = Math.floor(random() * (i + 1)); swap }`.
`random()` yields `out / 2^32` with `out < 2^32`, and `out * (i + 1) < 2^53`
for every reachable list length, so the floating-point
`Math.floor(random() * (i + 1))` is exactly `out * (i + 1) / 2^32` in `Nat`. -/
def fisherYates {α : Type} : List α → Nat → Nat → List α
  | arr, _, 0 => arr
  | arr, t, i + 1 =>
    let s := mulberryStep t
    let j := s.2 * (i + 2) / u32Mod
    fisherYates (listSwap arr (i + 1) j) s.1 i

/-- `seededShuffle` from `game-utils.ts`: copies the input, seeds
`mulberry32(hashString(seedText))` (whose closure state starts at
`seed + 0x6d2b79f5`), and runs Fisher-Yates from the last index down to 1. -/
def seededShuffle {α : Type} (items : List α) (seedText : String) : List α :=
  fisherYates items ((hashString seedText + 0x6d2b79f5) % u32Mod) (items.length - 1)

/-- `TileColor` from `game-utils.ts`. -/
inductive TileColor : Type
  | green
  | yellow
  | red
  | blank
deriving DecidableEq, Repr

/-- `ValidationResult` from `game-utils.ts`. -/
structure ValidationResult : Type where
  colors : List TileColor
  allGreen : Bool
deriving DecidableEq, Repr

/-- First pass of `validateGuess` ("greens"): walks `guess` with its index;
a position whose word strictly equals `solution[idx]` becomes green and
decrements `solutionCounts[word]`; every other position keeps the initial
`"red"` fill.  `solution[idx]` is `undefined` (never equal to a string) when
`idx` is out of range, which the `Option` comparison captures. -/
def validateGreens (solution : List String) : Nat → (String → Int) → List String →
    List TileColor × (String → Int)
  | _, counts, [] => ([], counts)
  | idx, counts, word :: rest =>
    if solution[idx]? = some word then
      let next := validateGreens solution (idx + 1)
        (fun w => if w = word then counts w - 1 else counts w) rest
      (TileColor.green :: next.1, next.2)
    else
      let next := validateGreens solution (idx + 1) counts rest
      (TileColor.red :: next.1, next.2)

/-- Second pass of `validateGuess` ("yellows"): green positions are skipped;
otherwise a positive remaining count turns the position yellow and is
decremented; otherwise the colour (red) is kept. -/
def validateYellows : (String → Int) → List (TileColor × String) → List TileColor
  | _, [] => []
  | counts, (c, word) :: rest =>
    if c = TileColor.green then c :: validateYellows counts rest
    else if counts word > 0 then
      TileColor.yellow :: validateYellows (fun w => if w = word then counts w - 1 else counts w) rest
    else c :: validateYellows counts rest

/-- `validateGuess` from `game-utils.ts`.  `solutionCounts` starts as the
multiplicity of each word in `solution` (absent keys read as 0 via `?? 0`
and the `undefined > 0` comparison). -/
def validateGuess (solution guess : List String) : ValidationResult :=
  let counts0 : String → Int := fun w => (solution.count w : Int)
  let p1 := validateGreens solution 0 counts0 guess
  let colors := validateYellows p1.2 (p1.1.zip guess)
  { colors := colors, allGreen := colors.all (fun c => c == TileColor.green) }

/-! ## Normalization and rule predicates (`validate-puzzles.mjs`, `next-puzzle` route)

The script works on strings read from database rows; a `null` column is
modelled by `""` (both fail `isNonEmpty`, and no other operation is applied
to a value before that guard, except `normalizeWord`/`normalizeLink` in the
route, whose `value ? ... : ""` branch sends both `null` and `""` to `""`,
exactly as `"".trim().toLowerCase()` does). -/

/-- Drop leading whitespace (the left half of `String.prototype.trim`). -/
def trimChars (cs : List Char) : List Char :=
  ((cs.dropWhile Char.isWhitespace).reverse.dropWhile Char.isWhitespace).reverse

/-- `value.trim()` (JavaScript whitespace restricted to the ASCII class). -/
def jsTrim (value : String) : String := String.mk (trimChars value.toList)

/-- `value.toLowerCase()` (character-wise ASCII lowering). -/
def jsToLower (value : String) : String := String.mk (value.toList.map Char.toLower)

/-- `normalizeWord`: `value.trim().toLowerCase()`. -/
def normalizeWord (value : String) : String := jsToLower (jsTrim value)

/-- Collapse every maximal run of whitespace to a single `' '`
(the `replace(/\s+/g, " ")` step); the flag records whether the previous
character was part of a whitespace run. -/
def collapseWs : Bool → List Char → List Char
  | _, [] => []
  | prevWs, c :: rest =>
    if c.isWhitespace then
      if prevWs then collapseWs true rest
      else ' ' :: collapseWs true rest
    else c :: collapseWs false rest

/-- `normalizeLink`: `value.trim().toLowerCase().replace(/\s+/g, " ")`. -/
def normalizeLink (value : String) : String :=
  String.mk (collapseWs false (jsToLower (jsTrim value)).toList)

/-- `isNonEmpty`: a present string whose trim is non-empty. -/
def isNonEmpty (value : String) : Bool := (jsTrim value).length > 0

/-- `isSingleWord`: `!/[\s-]/.test(value.trim())`. -/
def isSingleWord (value : String) : Bool :=
  !(jsTrim value).toList.any (fun c => c.isWhitespace || c = '-')

/-- `isTitleCase`: first character equals its uppercase form and the rest of
the string equals its lowercase form (false on the empty string). -/
def isTitleCase (value : String) : Bool :=
  match value.toList with
  | [] => false
  | c :: rest => c == c.toUpper && rest == rest.map Char.toLower

/-- `makePair(left, right) = normalizeLink(`${left} ${right}`)`. -/
def makePair (left right : String) : String := normalizeLink (left ++ " " ++ right)

/-! ## The per-row candidate validator (`validate-puzzles.mjs`) -/

/-- One `puzzles` row as selected by `validate-puzzles.mjs`
(`word_1..word_8`, `dummy_1..dummy_10`, `qa_link_1..qa_link_7`,
`difficulty`; the `id`/`puzzle_id` columns only label messages). -/
structure PuzzleRow : Type where
  word_1 : String
  word_2 : String
  word_3 : String
  word_4 : String
  word_5 : String
  word_6 : String
  word_7 : String
  word_8 : String
  dummy_1 : String
  dummy_2 : String
  dummy_3 : String
  dummy_4 : String
  dummy_5 : String
  dummy_6 : String
  dummy_7 : String
  dummy_8 : String
  dummy_9 : String
  dummy_10 : String
  qa_link_1 : String
  qa_link_2 : String
  qa_link_3 : String
  qa_link_4 : String
  qa_link_5 : String
  qa_link_6 : String
  qa_link_7 : String
  difficulty : String
deriving DecidableEq, Repr

/-- `chainWords = wordKeys.map((key) => row[key])`. -/
def chainWords (r : PuzzleRow) : List String :=
  [r.word_1, r.word_2, r.word_3, r.word_4, r.word_5, r.word_6, r.word_7, r.word_8]

/-- `dummyWords = dummyKeys.map((key) => row[key])`. -/
def dummyWords (r : PuzzleRow) : List String :=
  [r.dummy_1, r.dummy_2, r.dummy_3, r.dummy_4, r.dummy_5, r.dummy_6, r.dummy_7,
   r.dummy_8, r.dummy_9, r.dummy_10]

/-- `qaLinks = qaKeys.map((key) => row[key])`. -/
def qaLinks (r : PuzzleRow) : List String :=
  [r.qa_link_1, r.qa_link_2, r.qa_link_3, r.qa_link_4, r.qa_link_5, r.qa_link_6,
   r.qa_link_7]

/-- The findings `validate-puzzles.mjs` pushes, one constructor per push
site, carrying the data interpolated into the message. -/
inductive Vmsg : Type
  | missingChain
  | dupChain
  | dupDummy
  | chainNotSingle (word : String)
  | chainNotTitle (word : String)
  | dummyNotSingle (word : String)
  | dummyNotTitle (word : String)
  | dummyChainOverlap (words : List String)
  | dummyFusedOverlap (words : List String)
  | badDifficulty (d : String)
  | linkMismatch (idx : Nat) (link : String)
  | linkNotLowercase (idx : Nat)
  | linkHyphen (idx : Nat)
deriving DecidableEq, Repr

/-- `normalizedChain = chainWords.filter(isNonEmpty).map(normalizeWord)`. -/
def normalizedChainOf (row : PuzzleRow) : List String :=
  ((chainWords row).filter isNonEmpty).map normalizeWord

/-- `normalizedDummy = dummyWords.filter(isNonEmpty).map(normalizeWord)`. -/
def normalizedDummyOf (row : PuzzleRow) : List String :=
  ((dummyWords row).filter isNonEmpty).map normalizeWord

/-- `overlap = normalizedDummy.filter((word) => chainSet.has(word))`, the
`Set` of normalized chain words modelled by the deduplicated list. -/
def overlapWords (row : PuzzleRow) : List String :=
  (normalizedDummyOf row).filter (fun w => (normalizedChainOf row).dedup.contains w)

/-- `fusedPairs`: for each adjacent chain pair with both words present, push
`normalizeWord(`${left}${right}`)`. -/
def fusedPairsOf (row : PuzzleRow) : List String :=
  ((chainWords row).zip (chainWords row).tail).filterMap (fun p =>
    if isNonEmpty p.1 && isNonEmpty p.2 then some (normalizeWord (p.1 ++ p.2)) else none)

/-- `fusedOverlap = normalizedDummy.filter((word) => fusedSet.has(word))`. -/
def fusedOverlapWords (row : PuzzleRow) : List String :=
  (normalizedDummyOf row).filter (fun w => (fusedPairsOf row).dedup.contains w)

/-- The `qaLinks.forEach((link, idx) => ...)` body: warnings for a link that
differs from `makePair(chain[idx], chain[idx+1])`, is not lowercase as
authored, or contains a hyphen; skipped when the link or either adjacent
chain word is missing. -/
def linkChecks (row : PuzzleRow) (iv : Nat × String) : List Vmsg :=
  if !isNonEmpty iv.2 then []
  else
    match (chainWords row)[iv.1]?, (chainWords row)[iv.1 + 1]? with
    | some left, some right =>
      if !isNonEmpty left || !isNonEmpty right then []
      else
        (if normalizeLink iv.2 ≠ makePair left right
         then [Vmsg.linkMismatch iv.1 iv.2] else []) ++
        (if iv.2 ≠ jsToLower iv.2 then [Vmsg.linkNotLowercase iv.1] else []) ++
        (if iv.2.toList.contains '-' then [Vmsg.linkHyphen iv.1] else [])
    | _, _ => []

/-- The loop body of `run()` in `validate-puzzles.mjs` for one row, returning
`(errors, warnings)` in push order.  JavaScript `Set`s are modelled by
`dedup`-ed lists (`size` = deduplicated length, `has` = membership). -/
def validateRow (row : PuzzleRow) : List Vmsg × List Vmsg :=
  let chainWs := chainWords row
  let dummyWs := dummyWords row
  let missing := chainWs.filter (fun w => !isNonEmpty w)
  let eMissing := if missing.length ≠ 0 then [Vmsg.missingChain] else []
  let eDupChain :=
    if (normalizedChainOf row).dedup.length ≠ (normalizedChainOf row).length
    then [Vmsg.dupChain] else []
  let eDupDummy :=
    if (normalizedDummyOf row).dedup.length ≠ (normalizedDummyOf row).length
    then [Vmsg.dupDummy] else []
  let eChainSingle := chainWs.filterMap (fun w =>
    if isNonEmpty w && !isSingleWord w then some (Vmsg.chainNotSingle w) else none)
  let wChainTitle := chainWs.filterMap (fun w =>
    if isNonEmpty w && isSingleWord w && !isTitleCase w then some (Vmsg.chainNotTitle w) else none)
  let eDummySingle := dummyWs.filterMap (fun w =>
    if isNonEmpty w && !isSingleWord w then some (Vmsg.dummyNotSingle w) else none)
  let wDummyTitle := dummyWs.filterMap (fun w =>
    if isNonEmpty w && isSingleWord w && !isTitleCase w then some (Vmsg.dummyNotTitle w) else none)
  let eOverlap :=
    if (overlapWords row).length ≠ 0 then [Vmsg.dummyChainOverlap (overlapWords row)] else []
  let eFused :=
    if (fusedOverlapWords row).length ≠ 0
    then [Vmsg.dummyFusedOverlap (fusedOverlapWords row)] else []
  let wDifficulty :=
    if !(["GREEN", "BLUE", "PURPLE", "EASY", "MEDIUM", "HARD"].contains row.difficulty)
    then [Vmsg.badDifficulty row.difficulty] else []
  let wLinks := (qaLinks row).enum.flatMap (linkChecks row)
  (eMissing ++ eDupChain ++ eDupDummy ++ eChainSingle ++ eDummySingle ++ eOverlap ++ eFused,
   wChainTitle ++ wDummyTitle ++ wDifficulty ++ wLinks)

/-! ## Daily assignment scheduler (the `local_date` branch of the
`next-puzzle` route `POST`) -/

/-- A `puzzles` row as typed by the route (`DbPuzzle`). -/
structure DbPuzzle : Type where
  id : Nat
  difficulty : String
  word_1 : String
  word_2 : String
  word_3 : String
  word_4 : String
  word_5 : String
  word_6 : String
  word_7 : String
  word_8 : String
  dummy_1 : String
  dummy_2 : String
  dummy_3 : String
  dummy_4 : String
  dummy_5 : String
  dummy_6 : String
  dummy_7 : String
  dummy_8 : String
  dummy_9 : String
  dummy_10 : String
  qa_link_1 : String
  qa_link_2 : String
  qa_link_3 : String
  qa_link_4 : String
  qa_link_5 : String
  qa_link_6 : String
  qa_link_7 : String
deriving DecidableEq, Repr

/-- The seven `qa_link_*` columns in order. -/
def puzzleLinks (p : DbPuzzle) : List String :=
  [p.qa_link_1, p.qa_link_2, p.qa_link_3, p.qa_link_4, p.qa_link_5, p.qa_link_6,
   p.qa_link_7]

/-- The `daily_puzzles` ledger: rows `(date_key, puzzle_row_id)`.  The store
keeps at most one row per `date_key` (unique key). -/
abbrev Ledger : Type := List (String × Nat)

/-- Modelled from the spec: the Ledger Store read
`getAssignment(dateKey) -> puzzleId | absent` (§6); the repository performs
it as `select ... .eq("date_key", dateKey).maybeSingle()`, which is not part
of `src/`. -/
def getAssignment (ledger : Ledger) (dateKey : String) : Option Nat :=
  (ledger.find? (fun r => r.1 = dateKey)).map (fun r => r.2)

/-- Modelled from the spec: the Ledger Store atomic insert-if-absent (§6),
performed by the repository as
`upsert({date_key, puzzle_row_id}, {onConflict: "date_key", ignoreDuplicates: true}).select(...)`:
when no row for `dateKey` exists the row is inserted and returned
(`some pid`); when one exists nothing is written and no row is returned
(`none`). -/
def insertIfAbsent (ledger : Ledger) (dateKey : String) (pid : Nat) :
    Ledger × Option Nat :=
  match ledger.find? (fun r => r.1 = dateKey) with
  | some _ => (ledger, none)
  | none => (ledger ++ [(dateKey, pid)], some pid)

/-- `recentIds`: the `puzzle_row_id`s of `daily_puzzles` rows whose
`date_key` is among `recentKeys` (the route's `.in("date_key", recentKeys)`
query followed by the `Set` fill). -/
def recentIds (ledger : Ledger) (recentKeys : List String) : List Nat :=
  (ledger.filter (fun r => recentKeys.contains r.1)).map (fun r => r.2)

/-- `recentPuzzles = puzzleList.filter((puzzle) => recentIds.has(Number(puzzle.id)))`. -/
def recentPuzzles (pool : List DbPuzzle) (rids : List Nat) : List DbPuzzle :=
  pool.filter (fun p => rids.contains p.id)

/-- `bannedLinks`: every normalized non-empty `qa_link_*` of the recent
puzzles. -/
def bannedLinksOf (rps : List DbPuzzle) : List String :=
  (rps.flatMap (fun p => (puzzleLinks p).map normalizeLink)).filter (fun l => l ≠ "")

/-- `bannedEndpoints`: every normalized non-empty `word_1` / `word_8` of the
recent puzzles. -/
def bannedEndpointsOf (rps : List DbPuzzle) : List String :=
  (rps.flatMap (fun p => [normalizeWord p.word_1, normalizeWord p.word_8])).filter
    (fun w => w ≠ "")

/-- `candidateLinks`: the candidate's seven normalized links. -/
def candidateLinks (p : DbPuzzle) : List String :=
  (puzzleLinks p).map normalizeLink

/-- `candidateEndpoints`: the candidate's two normalized endpoint words. -/
def candidateEndpoints (p : DbPuzzle) : List String :=
  [normalizeWord p.word_1, normalizeWord p.word_8]

/-- `linkConflict || endpointConflict` for one candidate. -/
def hasConflict (bannedLinks bannedEndpoints : List String) (p : DbPuzzle) : Bool :=
  (candidateLinks p).any (fun l => bannedLinks.contains l) ||
    (candidateEndpoints p).any (fun w => bannedEndpoints.contains w)

/-- `ordered = [...puzzleList.slice(startIndex), ...puzzleList.slice(0, startIndex)]`
with `startIndex = dayIndex == null ? 0 : dayIndex % puzzleList.length`. -/
def rotatedPool (pool : List DbPuzzle) (dayIndex : Option Nat) : List DbPuzzle :=
  let startIndex := match dayIndex with
    | none => 0
    | some d => d % pool.length
  pool.drop startIndex ++ pool.take startIndex

/-- The scan over the rotated order plus the fallback:
the first conflict-free candidate, else `ordered[0]` with `usedFallback`. -/
def selectDaily (ordered : List DbPuzzle) (bannedLinks bannedEndpoints : List String) :
    Option DbPuzzle × Bool :=
  match ordered.find? (fun p => !hasConflict bannedLinks bannedEndpoints p) with
  | some p => (some p, false)
  | none => (ordered.head?, true)

/-- Outcome of one daily-assignment request: the ledger after the call, the
`id` of the puzzle in the JSON response (`none` when the response carries
`puzzle: null`), and whether the `similarity_guard_fallback` warning was
set. -/
structure AssignResult : Type where
  ledger : Ledger
  puzzleId : Option Nat
  usedFallback : Bool
deriving Repr

/-- The tail of the daily branch, from the `upsert` on: insert-if-absent of
the locally selected id; on success answer with the selection, otherwise
(`insertData` empty and no assignment seen at the initial read) re-read the
committed row and answer with the puzzle it denotes. -/
def assignAfterMiss (pool : List DbPuzzle) (ledger : Ledger) (dateKey : String)
    (selectedId : Nat) (usedFallback : Bool) : AssignResult :=
  let ins := insertIfAbsent ledger dateKey selectedId
  match ins.2 with
  | some _ => ⟨ins.1, some selectedId, usedFallback⟩
  | none =>
    match getAssignment ins.1 dateKey with
    | some committed =>
      ⟨ins.1, ((pool.find? (fun q => q.id = committed)).map (fun q => q.id)), usedFallback⟩
    | none => ⟨ins.1, none, usedFallback⟩

/-- The daily branch of the route for `dateKey`, with the two values the
route derives from `dateKey` (`dayIndex = dayIndexFromKey(dateKey)` and
`recentKeys = getRecentDateKeys(dateKey, 30)`) passed in explicitly:
empty-pool early return; idempotent fast path on an existing ledger row
(answering with the pool entry bearing the stored id); otherwise banned-set
computation over the recent window, rotation, similarity-guard scan,
fallback, and the atomic insert. -/
def assignDaily (pool : List DbPuzzle) (ledger : Ledger) (dateKey : String)
    (dayIndex : Option Nat) (recentKeys : List String) : AssignResult :=
  if pool.isEmpty then ⟨ledger, none, false⟩
  else
    match getAssignment ledger dateKey with
    | some pid =>
      ⟨ledger, ((pool.find? (fun p => p.id = pid)).map (fun p => p.id)), false⟩
    | none =>
      let rps := recentPuzzles pool (recentIds ledger recentKeys)
      let bl := bannedLinksOf rps
      let be := bannedEndpointsOf rps
      let sel := selectDaily (rotatedPool pool dayIndex) bl be
      match sel.1 with
      | none => ⟨ledger, none, sel.2⟩
      | some p => assignAfterMiss pool ledger dateKey p.id sel.2

/-! ## Date helpers (`dayIndexFromKey`, `dayNumberFromKey`) -/

/-- `dateKey.split("-")` on the character list. -/
def splitDash : List Char → List (List Char)
  | [] => [[]]
  | c :: rest =>
    if c = '-' then [] :: splitDash rest
    else
      match splitDash rest with
      | [] => [[c]]
      | g :: gs => (c :: g) :: gs

/-- JavaScript `Number(part)` for the decimal-digit strings date keys are
made of: the numeric value of a digit string, `0` for the empty string, and
no value (`NaN`) otherwise. -/
def digitsToNat (cs : List Char) : Option Nat :=
  cs.foldl
    (fun acc c =>
      match acc with
      | none => none
      | some n => if c.isDigit then some (n * 10 + (c.toNat - 48)) else none)
    (some 0)

/-- Days since 1970-01-01 of the proleptic-Gregorian civil date `(y, m, d)`
with `1 ≤ m ≤ 12` (`d` may overflow the month, as `Date.UTC` permits);
this is `Math.floor(Date.UTC(y, m - 1, d) / 86400000)` for the normalized
month. -/
def daysFromCivil (y m d : Int) : Int :=
  let yAdj := if m ≤ 2 then y - 1 else y
  let era := yAdj.fdiv 400
  let yoe := yAdj - era * 400
  let mp := (m + 9).emod 12
  let doy := (153 * mp + 2).fdiv 5 + d - 1
  let doe := yoe * 365 + yoe.fdiv 4 - yoe.fdiv 100 + doy
  era * 146097 + doe - 719468

/-- `dayIndexFromKey` from the `next-puzzle` route: split on `"-"`, reject a
missing / non-numeric / zero year, month or day, and return
`Math.floor(Date.UTC(year, month - 1, day) / 86400000)`.  `Date.UTC` maps a
year `0..99` to `1900 + year` and normalizes month overflow into the
year. -/
def dayIndexFromKey (dateKey : String) : Option Int :=
  match (splitDash dateKey.toList).map digitsToNat with
  | some y :: some m :: some d :: _ =>
    if y = 0 ∨ m = 0 ∨ d = 0 then none
    else
      let yy : Int := if y ≤ 99 then 1900 + (y : Int) else (y : Int)
      let m0 : Int := (m : Int) - 1
      some (daysFromCivil (yy + m0.fdiv 12) (m0.emod 12 + 1) (d : Int))
  | _ => none

/-- `dayNumberFromKey` from the `next-puzzle` route, with the environment
value `process.env.DAILY_LAUNCH_DATE` passed in (`none` = variable unset):
`max(1, dayIndex - launchIndex + 1)`, or `null` when the date key does not
parse, no launch date is configured (unset or blank after trim), or the
launch date does not parse. -/
def dayNumberFromKey (launchEnv : Option String) (dateKey : String) : Option Int :=
  match dayIndexFromKey dateKey with
  | none => none
  | some dayIndex =>
    match launchEnv with
    | none => none
    | some raw =>
      let launchKey := jsTrim raw
      if launchKey.length = 0 then none
      else
        match dayIndexFromKey launchKey with
        | none => none
        | some launchIndex => some (max 1 (dayIndex - launchIndex + 1))

/-! ## The §4.1 reference shuffle, in signed 32-bit arithmetic

The specification describes the shuffle over JavaScript's signed 32-bit
values.  The definitions below model those values as `Int`s with an explicit
ToInt32/ToUint32 truncation, so that the reference algorithm can be stated
in the specification's own terms and compared against the pattern-level
source embedding `seededShuffle`. -/

/-- ToUint32: the unsigned 32-bit pattern of an integer. -/
def toUint32 (z : Int) : Nat := (z % 4294967296).toNat

/-- Reinterpret an unsigned 32-bit pattern as a signed 32-bit value. -/
def patToInt32 (u : Nat) : Int :=
  if u < 2147483648 then (u : Int) else (u : Int) - 4294967296

/-- ToInt32: truncate an integer to a signed 32-bit value. -/
def toInt32 (z : Int) : Int := patToInt32 (toUint32 z)

/-- `Math.imul` on signed values. -/
def jsImul (a b : Int) : Int := toInt32 (a * b)

/-- `a >>> k`: unsigned right shift; the result is a non-negative pattern. -/
def jsShrU (a : Int) (k : Nat) : Nat := toUint32 a / 2 ^ k

/-- `a ^ b` on signed values. -/
def jsXor (a b : Int) : Int := patToInt32 (Nat.xor (toUint32 a) (toUint32 b))

/-- `a | b` on signed values. -/
def jsOr (a b : Int) : Int := patToInt32 (Nat.lor (toUint32 a) (toUint32 b))

/-- The mixing steps of one §4.1 draw:
`x = (x ^ (x>>15)) * (x|1)` (32-bit product), then
`x ^= x + ((x ^ (x>>7)) * (x|61))`, and the draw's numerator
`(x ^ (x>>14)) >>> 0` (the draw itself is that value over `2^32`). -/
def jsMix (x : Int) : Int × Nat :=
  let x1 := jsImul (jsXor x ((jsShrU x 15 : Nat) : Int)) (jsOr x 1)
  let x2 := jsXor x1 (x1 + jsImul (jsXor x1 ((jsShrU x1 7 : Nat) : Int)) (jsOr x1 61))
  (x2, toUint32 (jsXor x2 ((jsShrU x2 14 : Nat) : Int)))

/-- The claim's generator: state `t`; every draw begins with
`t += 0x6D2B79F5` and then mixes a copy of the incremented state, so only
the increment is kept in `t`. -/
def claimStep (t : Int) : Int × Nat :=
  let incremented := t + 0x6D2B79F5
  (incremented, (jsMix incremented).2)

/-- The generator as the source implements it: the increment happens once at
initialization (see `refShuffle`), and the *mixed* value is stored back into
`t`, becoming the next draw's input. -/
def refStep (t : Int) : Int × Nat := jsMix t

/-- Fisher-Yates from the last index down to 1 over an abstract draw step:
`j = floor(draw() * (i + 1)) = out * (i + 1) / 2^32`. -/
def fisherYatesWith {α : Type} (step : Int → Int × Nat) :
    List α → Int → Nat → List α
  | arr, _, 0 => arr
  | arr, t, i + 1 =>
    let s := step t
    let j := s.2 * (i + 2) / u32Mod
    fisherYatesWith step (listSwap arr (i + 1) j) s.1 i

/-- The claim's integer seed: fold `h = (h*31 - h) + charCode(c)` per
character, truncated to 32-bit signed. -/
def claimHash (input : String) : Int :=
  input.toList.foldl (fun h c => toInt32 (h * 31 - h + (c.toNat : Int))) 0

/-- The seed fold as the source implements it:
`h = (h << 5) - h + charCode(c)`, wrapped to int32. -/
def refHash (input : String) : Int :=
  input.toList.foldl (fun h c => toInt32 (toInt32 (h * 32) - h + (c.toNat : Int))) 0

/-- The reference shuffle exactly as claim C2 words it. -/
def claimShuffle {α : Type} (items : List α) (seedText : String) : List α :=
  fisherYatesWith claimStep items (claimHash seedText) (items.length - 1)

/-- The amended reference shuffle: seed fold `(h << 5) - h + c`, generator
state initialized to `seed + 0x6D2B79F5` and replaced by the mixed value on
every draw. -/
def refShuffle {α : Type} (items : List α) (seedText : String) : List α :=
  fisherYatesWith refStep items (refHash seedText + 0x6D2B79F5) (items.length - 1)

/-! ## Concrete instances

Rows and pool entries used to evaluate the definitions at specific inputs. -/

/-- A well-formed validator row whose first QA link (`"foo"`) matches
neither accepted link form. -/
def rowLinkFoo : PuzzleRow where
  word_1 := "Key"
  word_2 := "Chain"
  word_3 := "Reaction"
  word_4 := "Time"
  word_5 := "Zone"
  word_6 := "Defense"
  word_7 := "Mechanism"
  word_8 := "Failure"
  dummy_1 := "Apple"
  dummy_2 := "Banana"
  dummy_3 := "Cherry"
  dummy_4 := "Dragon"
  dummy_5 := "Eagle"
  dummy_6 := "Falcon"
  dummy_7 := "Grape"
  dummy_8 := "Horse"
  dummy_9 := "Igloo"
  dummy_10 := "Jungle"
  qa_link_1 := "foo"
  qa_link_2 := "chain reaction"
  qa_link_3 := "reaction time"
  qa_link_4 := "time zone"
  qa_link_5 := "zone defense"
  qa_link_6 := "defense mechanism"
  qa_link_7 := "mechanism failure"
  difficulty := "GREEN"

/-- `rowLinkFoo` with a trailing space on `word_1` and the dummy
`"Keychain"`: the concatenation of the two *normalized* adjacent chain words
is `"keychain"`, but the validator normalizes the raw concatenation
`"Key Chain"` to `"key chain"`. -/
def rowFusedConcat : PuzzleRow :=
  { rowLinkFoo with word_1 := "Key ", dummy_1 := "Keychain", qa_link_1 := "key chain" }

/-- A pool entry for the scheduler theorems. -/
def samplePuzzleA : DbPuzzle where
  id := 1
  difficulty := "GREEN"
  word_1 := "Key"
  word_2 := "Chain"
  word_3 := "Reaction"
  word_4 := "Time"
  word_5 := "Zone"
  word_6 := "Defense"
  word_7 := "Mechanism"
  word_8 := "Failure"
  dummy_1 := "Apple"
  dummy_2 := "Banana"
  dummy_3 := "Cherry"
  dummy_4 := "Dragon"
  dummy_5 := "Eagle"
  dummy_6 := "Falcon"
  dummy_7 := "Grape"
  dummy_8 := "Horse"
  dummy_9 := "Igloo"
  dummy_10 := "Jungle"
  qa_link_1 := "key chain"
  qa_link_2 := "chain reaction"
  qa_link_3 := "reaction time"
  qa_link_4 := "time zone"
  qa_link_5 := "zone defense"
  qa_link_6 := "defense mechanism"
  qa_link_7 := "mechanism failure"

/-- A second pool entry with disjoint words and links. -/
def samplePuzzleB : DbPuzzle where
  id := 2
  difficulty := "BLUE"
  word_1 := "Sun"
  word_2 := "Flower"
  word_3 := "Pot"
  word_4 := "Hole"
  word_5 := "Punch"
  word_6 := "Card"
  word_7 := "Board"
  word_8 := "Walk"
  dummy_1 := "Maple"
  dummy_2 := "River"
  dummy_3 := "Stone"
  dummy_4 := "Cloud"
  dummy_5 := "Piano"
  dummy_6 := "Tiger"
  dummy_7 := "Lemon"
  dummy_8 := "Quilt"
  dummy_9 := "Robot"
  dummy_10 := "Violet"
  qa_link_1 := "sunflower"
  qa_link_2 := "flower pot"
  qa_link_3 := "pot hole"
  qa_link_4 := "hole punch"
  qa_link_5 := "punch card"
  qa_link_6 := "card board"
  qa_link_7 := "board walk"

/-! ## General lemmas -/

/-- Membership in a conditional singleton. -/
theorem mem_ite_singleton {α : Type} (x a : α) (c : Prop) [Decidable c] :
    (x ∈ if c then [a] else []) ↔ c ∧ x = a := by
  split <;> simp_all

/-- The swap step is a permutation. -/
theorem listSwap_perm {α : Type} (arr : List α) (i j : Nat) :
    (listSwap arr i j).Perm arr := by
  unfold listSwap
  cases hi : arr[i]? with
  | none => cases arr[j]? <;> simp
  | some a =>
    cases hj : arr[j]? with
    | none => simp
    | some b =>
      simp only
      obtain ⟨hil, hia⟩ := List.getElem?_eq_some.mp hi
      obtain ⟨hjl, hjb⟩ := List.getElem?_eq_some.mp hj
      letI : DecidableEq α := Classical.decEq α
      rw [List.perm_iff_count]
      intro c
      have hjl' : j < (arr.set i b).length := by simpa using hjl
      rw [List.count_set a c (arr.set i b) j hjl', List.count_set b c arr i hil]
      have hset : (arr.set i b)[j] = b := by
        rw [List.getElem_set]
        split <;> simp [hjb]
      have hcount : (if (arr[i] == c) = true then 1 else 0) ≤ List.count c arr := by
        split
        · next h =>
          have : c ∈ arr := by
            rw [show c = arr[i] from (beq_iff_eq.mp h).symm]
            exact List.getElem_mem hil
          simpa using List.count_pos_iff.mpr this
        · exact Nat.zero_le _
      subst hia hjb
      rw [hset]
      simp only [beq_iff_eq] at hcount ⊢
      by_cases h1 : arr[i] = c <;> by_cases h2 : arr[j] = c <;>
        simp only [h1, h2, if_true, if_false] at hcount ⊢ <;> omega

/-- The Fisher-Yates loop is a permutation for every state. -/
theorem fisherYates_perm {α : Type} :
    ∀ (i : Nat) (arr : List α) (t : Nat), (fisherYates arr t i).Perm arr := by
  intro i
  induction i with
  | zero => intro arr t; rw [fisherYates]
  | succ i ih =>
    intro arr t
    rw [fisherYates]
    exact (ih _ _).trans (listSwap_perm ..)

/-! ## Correspondence between the signed reference model and the pattern
model of the shuffle -/

theorem toUint32_lt (z : Int) : toUint32 z < 4294967296 := by
  unfold toUint32; omega

theorem toUint32_natCast (u : Nat) (h : u < 4294967296) : toUint32 (u : Int) = u := by
  unfold toUint32; omega

theorem toUint32_patToInt32 (u : Nat) (h : u < 4294967296) :
    toUint32 (patToInt32 u) = u := by
  unfold toUint32 patToInt32; split <;> omega

theorem toUint32_toInt32 (z : Int) : toUint32 (toInt32 z) = toUint32 z := by
  unfold toInt32 patToInt32 toUint32; split <;> omega

theorem toUint32_add (a b : Int) :
    toUint32 (a + b) = (toUint32 a + toUint32 b) % 4294967296 := by
  unfold toUint32; omega

theorem toUint32_mul (a b : Int) :
    toUint32 (a * b) = (toUint32 a * toUint32 b) % 4294967296 := by
  have hmod : (a * b) % 4294967296 = ((a % 4294967296) * (b % 4294967296)) % 4294967296 :=
    Int.mul_emod a b 4294967296
  have ha : (0:Int) ≤ a % 4294967296 := Int.emod_nonneg a (by norm_num)
  have hb : (0:Int) ≤ b % 4294967296 := Int.emod_nonneg b (by norm_num)
  obtain ⟨p, hp⟩ := Int.eq_ofNat_of_zero_le ha
  obtain ⟨q, hq⟩ := Int.eq_ofNat_of_zero_le hb
  unfold toUint32
  rw [hmod, hp, hq, ← Nat.cast_mul, Int.toNat_natCast, Int.toNat_natCast]
  generalize p * q = r
  omega

theorem toUint32_jsImul (a b : Int) :
    toUint32 (jsImul a b) = imul32 (toUint32 a) (toUint32 b) := by
  unfold jsImul imul32
  rw [toUint32_toInt32, toUint32_mul]
  rfl

theorem toUint32_jsXor (a b : Int) :
    toUint32 (jsXor a b) = Nat.xor (toUint32 a) (toUint32 b) := by
  unfold jsXor
  exact toUint32_patToInt32 _
    (by simpa using Nat.xor_lt_two_pow (n := 32) (toUint32_lt a) (toUint32_lt b))

theorem toUint32_jsOr (a b : Int) :
    toUint32 (jsOr a b) = Nat.lor (toUint32 a) (toUint32 b) := by
  unfold jsOr
  exact toUint32_patToInt32 _
    (by simpa using Nat.or_lt_two_pow (n := 32) (toUint32_lt a) (toUint32_lt b))

theorem jsShrU_toUint32 (a : Int) (k : Nat) : jsShrU a k = shr32 (toUint32 a) k := by
  unfold jsShrU shr32
  rfl

theorem jsShrU_lt (a : Int) (k : Nat) : jsShrU a k < 4294967296 :=
  Nat.lt_of_le_of_lt (Nat.div_le_self _ _) (toUint32_lt a)

theorem toUint32_shrCast (a : Int) (k : Nat) :
    toUint32 ((jsShrU a k : Nat) : Int) = shr32 (toUint32 a) k := by
  rw [toUint32_natCast _ (jsShrU_lt a k)]
  exact jsShrU_toUint32 a k

/-- First mixing step of a draw, on patterns. -/
theorem jsMix_stage1 (x : Int) :
    toUint32 (jsImul (jsXor x ((jsShrU x 15 : Nat) : Int)) (jsOr x 1)) =
      imul32 (Nat.xor (toUint32 x) (shr32 (toUint32 x) 15)) (Nat.lor (toUint32 x) 1) := by
  have hone : toUint32 (1 : Int) = 1 := by decide
  rw [toUint32_jsImul, toUint32_jsXor, toUint32_jsOr, toUint32_shrCast, hone]

/-- Second mixing step of a draw, on patterns. -/
theorem jsMix_stage2 (x : Int) :
    toUint32 (jsXor x (x + jsImul (jsXor x ((jsShrU x 7 : Nat) : Int)) (jsOr x 61))) =
      Nat.xor (toUint32 x)
        ((toUint32 x + imul32 (Nat.xor (toUint32 x) (shr32 (toUint32 x) 7))
          (Nat.lor (toUint32 x) 61)) % u32Mod) := by
  have hsixtyone : toUint32 (61 : Int) = 61 := by decide
  rw [toUint32_jsXor, toUint32_add, toUint32_jsImul, toUint32_jsXor, toUint32_jsOr,
    toUint32_shrCast, hsixtyone]
  rfl

/-- Output extraction of a draw, on patterns. -/
theorem jsMix_stage3 (x : Int) :
    toUint32 (jsXor x ((jsShrU x 14 : Nat) : Int)) =
      Nat.xor (toUint32 x) (shr32 (toUint32 x) 14) := by
  rw [toUint32_jsXor, toUint32_shrCast]

/-- One draw of the signed reference generator matches one `mulberryStep`
on the unsigned pattern of the state: same next pattern, same numerator. -/
theorem jsMix_corr (t : Int) :
    toUint32 (jsMix t).1 = (mulberryStep (toUint32 t)).1 ∧
      (jsMix t).2 = (mulberryStep (toUint32 t)).2 := by
  simp only [jsMix, mulberryStep]
  constructor
  · rw [jsMix_stage2, jsMix_stage1]
  · rw [jsMix_stage3, jsMix_stage2, jsMix_stage1]

/-- The Fisher-Yates loop on the signed reference generator computes the
source loop on the unsigned pattern of the state. -/
theorem fisherYatesWith_refStep_corr {α : Type} :
    ∀ (i : Nat) (arr : List α) (t : Int),
      fisherYatesWith refStep arr t i = fisherYates arr (toUint32 t) i := by
  intro i
  induction i with
  | zero => intro arr t; rw [fisherYatesWith, fisherYates]
  | succ i ih =>
    intro arr t
    rw [fisherYatesWith, fisherYates]
    simp only [refStep]
    rw [(jsMix_corr t).2, ih, (jsMix_corr t).1]

theorem hashString_lt (s : String) : hashString s < 4294967296 := by
  unfold hashString
  generalize s.toList = cs
  induction cs using List.reverseRecOn with
  | nil => simp [u32Mod]
  | append_singleton cs c ih =>
    rw [List.foldl_append, List.foldl_cons, List.foldl_nil]
    exact Nat.mod_lt _ (by norm_num [u32Mod])

/-- The amended seed fold computes the source `hashString` pattern. -/
theorem refHash_corr (s : String) : toUint32 (refHash s) = hashString s := by
  unfold refHash hashString
  generalize s.toList = cs
  suffices h : ∀ (cs : List Char) (hz : Int),
      toUint32 (cs.foldl (fun h c => toInt32 (toInt32 (h * 32) - h + (c.toNat : Int))) hz) =
        cs.foldl (fun h c => (31 * h + c.toNat) % u32Mod) (toUint32 hz) by
    rw [h cs 0]; norm_num [toUint32]
  intro cs
  induction cs with
  | nil => intro hz; rfl
  | cons c cs ih =>
    intro hz
    rw [List.foldl_cons, List.foldl_cons, ih]
    congr 1
    have h32 : toInt32 (hz * 32) % 4294967296 = (hz * 32) % 4294967296 := by
      unfold toInt32 patToInt32 toUint32; split <;> omega
    unfold toUint32 toInt32 patToInt32 toUint32 u32Mod
    split <;> omega

/-- The signed initial state of the amended reference shuffle has the same
pattern as the source's initial closure state. -/
theorem refInit_corr (s : String) :
    toUint32 (refHash s + 0x6D2B79F5) = (hashString s + 0x6d2b79f5) % u32Mod := by
  have hm : toUint32 (0x6D2B79F5 : Int) = 0x6d2b79f5 := by decide
  rw [toUint32_add, refHash_corr, hm]
  rfl

/-! ## Claim C2 -/

/-- C2 counterexample: on the specification's own example input
(`[1,2,3,4,5]`, seed `"puzzle-7"`), `seededShuffle` does not equal the
reference shuffle worded by the claim (seed fold `h = (h*31 - h) + c`, state
incremented by 0x6D2B79F5 at the start of every draw): the source yields
`[4,3,2,1,5]`, the claimed reference `[1,3,5,4,2]`. -/
theorem seededShuffle_ne_claim_reference :
    seededShuffle [1, 2, 3, 4, 5] "puzzle-7" ≠ claimShuffle [1, 2, 3, 4, 5] "puzzle-7" := by
  decide

/-- C2 amended: for every list and seed text, `seededShuffle` equals the
signed 32-bit reference shuffle whose seed fold is `h = (h << 5) - h + c`
(i.e. `h*31 + c`) wrapped to int32, and whose mulberry32 state is
incremented by 0x6D2B79F5 once at initialization, each draw storing the
mixed value back into the state. -/
theorem seededShuffle_eq_fixed_reference {α : Type} (L : List α) (s : String) :
    seededShuffle L s = refShuffle L s := by
  unfold seededShuffle refShuffle
  rw [fisherYatesWith_refStep_corr, refInit_corr]

/-! ## Claim C8 -/

/-- C8: `seededShuffle` is deterministic (equal calls give equal results —
the embedding is a pure function), returns a permutation of its input (same
multiset of elements), and in particular preserves length; the input list
itself is never written (the loop works on the copy `[...items]`). -/
theorem seededShuffle_deterministic_perm {α : Type} (L : List α) (s : String) :
    seededShuffle L s = seededShuffle L s ∧ (seededShuffle L s).Perm L ∧
      (seededShuffle L s).length = L.length := by
  have hperm : (seededShuffle L s).Perm L := fisherYates_perm _ _ _
  exact ⟨rfl, hperm, hperm.length_eq⟩

/-! ## Claim C10 -/

theorem validateGreens_length (guess : List String) :
    ∀ (solution : List String) (idx : Nat) (counts : String → Int),
      (validateGreens solution idx counts guess).1.length = guess.length := by
  induction guess with
  | nil => intro solution idx counts; rfl
  | cons w rest ih =>
    intro solution idx counts
    rw [validateGreens]
    split <;> simp [ih]

theorem validateGreens_getElem? (guess : List String) :
    ∀ (solution : List String) (idx : Nat) (counts : String → Int) (k : Nat),
      (validateGreens solution idx counts guess).1[k]? =
        (guess[k]?).map
          (fun w => if solution[idx + k]? = some w then TileColor.green else TileColor.red) := by
  induction guess with
  | nil => intro solution idx counts k; simp [validateGreens]
  | cons w rest ih =>
    intro solution idx counts k
    rw [validateGreens]
    cases k with
    | zero => split <;> simp_all
    | succ k =>
      have harith : idx + (k + 1) = (idx + 1) + k := by omega
      split <;> simpa [harith] using ih solution (idx + 1) _ k

theorem validateYellows_length (l : List (TileColor × String)) :
    ∀ counts : String → Int, (validateYellows counts l).length = l.length := by
  induction l with
  | nil => intro counts; rfl
  | cons p rest ih =>
    intro counts
    obtain ⟨c, w⟩ := p
    rw [validateYellows]
    split
    · simp [ih]
    · split <;> simp [ih]

theorem validateYellows_getElem?_green (l : List (TileColor × String)) :
    ∀ (counts : String → Int) (k : Nat),
      (validateYellows counts l)[k]? = some TileColor.green ↔
        (∃ w, l[k]? = some (TileColor.green, w)) := by
  induction l with
  | nil => intro counts k; simp [validateYellows]
  | cons p rest ih =>
    intro counts k
    obtain ⟨c, w⟩ := p
    rw [validateYellows]
    split
    · next hc =>
      subst hc
      cases k with
      | zero => simp
      | succ k => simpa using ih _ k
    · next hc =>
      split
      · cases k with
        | zero => simp [Ne.symm hc, hc]
        | succ k => simpa using ih _ k
      · cases k with
        | zero => simp [hc]
        | succ k => simpa using ih _ k

/-- C10: for equally long `solution` and `guess`, `validateGuess` returns as
many colours as there are guess words, and `allGreen` holds exactly when the
guess agrees with the solution at every index. -/
theorem validateGuess_length_allGreen (solution guess : List String)
    (h : solution.length = guess.length) :
    (validateGuess solution guess).colors.length = guess.length ∧
      ((validateGuess solution guess).allGreen = true ↔
        ∀ i : Nat, guess[i]? = solution[i]?) := by
  dsimp only [validateGuess]
  set p1 := validateGreens solution 0 (fun w => (solution.count w : Int)) guess with hp1
  set colors := validateYellows p1.2 (p1.1.zip guess) with hcolors
  have hzlen : (p1.1.zip guess).length = guess.length := by
    rw [List.length_zip, hp1, validateGreens_length]
    omega
  have hcolen : colors.length = guess.length := by
    rw [hcolors, validateYellows_length, hzlen]
  refine ⟨hcolen, ?_⟩
  rw [List.all_eq_true]
  constructor
  · intro hall i
    by_cases hi : i < guess.length
    · have hlt : i < colors.length := by rw [hcolen]; exact hi
      have hci : colors[i]? = some colors[i] := List.getElem?_eq_getElem hlt
      have hgreen : colors[i] = TileColor.green :=
        beq_iff_eq.mp (hall _ (List.getElem_mem hlt))
      rw [hgreen] at hci
      obtain ⟨w, hzip⟩ := (validateYellows_getElem?_green _ _ _).mp hci
      obtain ⟨hp1get, hguess⟩ := List.getElem?_zip_eq_some.mp hzip
      rw [hp1, validateGreens_getElem?, hguess] at hp1get
      simp only [Option.map_some', Option.some_inj, Nat.zero_add] at hp1get
      by_cases hcond : solution[i]? = some w
      · rw [hguess, hcond]
      · rw [if_neg hcond] at hp1get
        exact absurd hp1get (by simp)
    · rw [List.getElem?_eq_none (l := guess) (by omega),
        List.getElem?_eq_none (l := solution) (by omega)]
  · intro hagree x hx
    obtain ⟨k, hk⟩ := List.mem_iff_getElem?.mp hx
    have hklt : k < colors.length := (List.getElem?_eq_some.mp hk).1
    have hkg : k < guess.length := by rw [← hcolen]; exact hklt
    have hguessk : guess[k]? = some guess[k] := List.getElem?_eq_getElem hkg
    have hsolk : solution[k]? = some guess[k] := by rw [← hagree k]; exact hguessk
    have hp1get : p1.1[k]? = some TileColor.green := by
      rw [hp1, validateGreens_getElem?, hguessk]
      simp [Nat.zero_add, hsolk]
    have hzip : (p1.1.zip guess)[k]? = some (TileColor.green, guess[k]) :=
      List.getElem?_zip_eq_some.mpr ⟨hp1get, hguessk⟩
    have : colors[k]? = some TileColor.green :=
      (validateYellows_getElem?_green _ _ _).mpr ⟨guess[k], hzip⟩
    rw [hk] at this
    simp only [Option.some_inj] at this
    rw [this]
    rfl

theorem validateGuess_length_allGreen_witness :
    (["Key", "Chain", "Reaction"] : List String).length =
        (["Key", "Reaction", "Chain"] : List String).length ∧
      (validateGuess ["Key", "Chain", "Reaction"] ["Key", "Reaction", "Chain"]).colors.length =
        (["Key", "Reaction", "Chain"] : List String).length :=
  ⟨by decide,
    (validateGuess_length_allGreen ["Key", "Chain", "Reaction"] ["Key", "Reaction", "Chain"]
      (by decide)).1⟩

/-! ## Claim C9 -/

theorem string_length_zero_eq_empty (s : String) (h : s.length = 0) : s = "" := by
  cases s with
  | mk data =>
    have hd : data = [] := List.length_eq_zero.mp h
    simp [hd]

/-- C9: with a configured launch date that parses, `dayNumberFromKey`
computes `max 1 (dayIndex - launchIndex + 1)`, is at least 1, and is
monotone along the `dayIndex` order of date keys; with no configured launch
date it yields no ordinal for any date key. -/
theorem dayNumber_formula_monotone (raw k1 k2 : String) (L i1 i2 : Int)
    (hL : dayIndexFromKey (jsTrim raw) = some L)
    (h1 : dayIndexFromKey k1 = some i1)
    (h2 : dayIndexFromKey k2 = some i2)
    (hle : i1 ≤ i2) :
    (∀ dk, dayNumberFromKey none dk = none) ∧
      dayNumberFromKey (some raw) k1 = some (max 1 (i1 - L + 1)) ∧
      dayNumberFromKey (some raw) k2 = some (max 1 (i2 - L + 1)) ∧
      1 ≤ max 1 (i1 - L + 1) ∧
      max 1 (i1 - L + 1) ≤ max 1 (i2 - L + 1) := by
  have hblank : ¬(jsTrim raw).length = 0 := by
    intro h0
    rw [string_length_zero_eq_empty _ h0] at hL
    have hnone : dayIndexFromKey "" = none := by decide
    rw [hnone] at hL
    exact Option.noConfusion hL
  refine ⟨?_, ?_, ?_, ?_, ?_⟩
  · intro dk
    unfold dayNumberFromKey
    cases dayIndexFromKey dk <;> rfl
  · unfold dayNumberFromKey
    rw [h1]
    simp only [if_neg hblank, hL]
  · unfold dayNumberFromKey
    rw [h2]
    simp only [if_neg hblank, hL]
  · omega
  · omega

theorem dayNumber_formula_monotone_witness :
    dayIndexFromKey (jsTrim "2024-01-01") = some 19723 ∧
      dayNumberFromKey (some "2024-01-01") "2024-03-05" =
        some (max 1 ((19787 : Int) - 19723 + 1)) ∧
      dayNumberFromKey (some "2024-01-01") "2024-03-06" =
        some (max 1 ((19788 : Int) - 19723 + 1)) ∧
      max 1 ((19787 : Int) - 19723 + 1) ≤ max 1 ((19788 : Int) - 19723 + 1) :=
  ⟨by decide,
    (dayNumber_formula_monotone "2024-01-01" "2024-03-05" "2024-03-06" 19723 19787 19788
      (by decide) (by decide) (by decide) (by decide)).2.1,
    (dayNumber_formula_monotone "2024-01-01" "2024-03-05" "2024-03-06" 19723 19787 19788
      (by decide) (by decide) (by decide) (by decide)).2.2.1,
    (dayNumber_formula_monotone "2024-01-01" "2024-03-05" "2024-03-06" 19723 19787 19788
      (by decide) (by decide) (by decide) (by decide)).2.2.2.2⟩

/-! ## Scheduler lemmas -/

/-- `find?` returns the first match: its witness index and the failure of
every earlier entry. -/
theorem find?_eq_some_first {α : Type} (p : α → Bool) :
    ∀ (l : List α) (x : α), l.find? p = some x →
      ∃ k : Nat, l[k]? = some x ∧ p x = true ∧
        ∀ m : Nat, m < k → ∀ q, l[m]? = some q → p q = false := by
  intro l
  induction l with
  | nil => intro x h; simp [List.find?] at h
  | cons a l ih =>
    intro x h
    rw [List.find?_cons] at h
    cases hpa : p a with
    | true =>
      rw [hpa] at h
      simp only [Option.some_inj] at h
      subst h
      refine ⟨0, ?_, hpa, fun m hm => absurd hm (Nat.not_lt_zero m)⟩
      simp
    | false =>
      rw [hpa] at h
      obtain ⟨k, hk, hpx, hprev⟩ := ih x h
      refine ⟨k + 1, by simpa using hk, hpx, ?_⟩
      intro m hm q hq
      cases m with
      | zero =>
        simp only [List.getElem?_cons_zero, Option.some_inj] at hq
        subst hq
        exact hpa
      | succ m =>
        rw [List.getElem?_cons_succ] at hq
        exact hprev m (by omega) q hq

/-- The rotation keeps the pool's length and realizes
`ordered[m] = pool[(startIndex + m) mod len]`. -/
theorem rotatedPool_spec (pool : List DbPuzzle) (d : Nat) (hne : pool ≠ []) :
    (rotatedPool pool (some d)).length = pool.length ∧
      ∀ m, m < pool.length →
        (rotatedPool pool (some d))[m]? =
          pool[(d % pool.length + m) % pool.length]? := by
  have hn : 0 < pool.length := List.length_pos.mpr hne
  have hs : d % pool.length < pool.length := Nat.mod_lt d hn
  constructor
  · simp only [rotatedPool, List.length_append, List.length_drop, List.length_take]
    omega
  · intro m hm
    simp only [rotatedPool]
    rw [List.getElem?_append]
    rw [List.length_drop]
    by_cases hlt : m < pool.length - d % pool.length
    · rw [if_pos hlt, List.getElem?_drop]
      congr 1
      have hmod : (d % pool.length + m) % pool.length = d % pool.length + m :=
        Nat.mod_eq_of_lt (by omega)
      omega
    · rw [if_neg hlt, List.getElem?_take]
      rw [if_pos (by omega)]
      congr 1
      have hmod : (d % pool.length + m) % pool.length = d % pool.length + m - pool.length := by
        rw [Nat.mod_eq_sub_mod (by omega)]
        exact Nat.mod_eq_of_lt (by omega)
      omega

/-- `!hasConflict` is the claim's qualification predicate: all seven
normalized links outside the banned links, both normalized endpoints outside
the banned endpoints. -/
theorem hasConflict_false_iff (bl be : List String) (p : DbPuzzle) :
    hasConflict bl be p = false ↔
      ((∀ l ∈ candidateLinks p, l ∉ bl) ∧
        normalizeWord p.word_1 ∉ be ∧ normalizeWord p.word_8 ∉ be) := by
  simp [hasConflict, candidateEndpoints, not_or]

/-- `getAssignment` is `none` exactly when no ledger row has the key. -/
theorem getAssignment_eq_none (ledger : Ledger) (dateKey : String) :
    getAssignment ledger dateKey = none ↔
      ledger.find? (fun r => r.1 = dateKey) = none := by
  simp [getAssignment]

/-! ## Claim C1 -/

/-- C1: for a date key with no ledger row and a non-empty pool in ascending
id order, the daily branch iterates the pool rotated to start at
`dayIndex mod len(pool)`, answers with the first entry whose seven
normalized links avoid the banned links and whose normalized endpoint words
avoid the banned endpoints (with `usedFallback = false`), and only when no
entry qualifies answers with the rotated order's first entry and
`usedFallback = true`. -/
theorem dailyAssign_rotation_and_guard
    (pool : List DbPuzzle) (ledger : Ledger) (dateKey : String) (d : Nat)
    (recentKeys : List String) (bl be : List String) (ordered : List DbPuzzle)
    (res : AssignResult)
    (hne : pool ≠ [])
    (_hasc : pool.Pairwise (fun a b => a.id < b.id))
    (hmiss : getAssignment ledger dateKey = none)
    (hbl : bl = bannedLinksOf (recentPuzzles pool (recentIds ledger recentKeys)))
    (hbe : be = bannedEndpointsOf (recentPuzzles pool (recentIds ledger recentKeys)))
    (hord : ordered = rotatedPool pool (some d))
    (hres : res = assignDaily pool ledger dateKey (some d) recentKeys) :
    (ordered.length = pool.length ∧
      ∀ m : Nat, m < pool.length →
        ordered[m]? = pool[(d % pool.length + m) % pool.length]?) ∧
      ((∃ k : Nat, ∃ p : DbPuzzle, ordered[k]? = some p ∧
          ((∀ l ∈ candidateLinks p, l ∉ bl) ∧
            normalizeWord p.word_1 ∉ be ∧ normalizeWord p.word_8 ∉ be) ∧
          (∀ m : Nat, m < k → ∀ q : DbPuzzle, ordered[m]? = some q →
            ¬((∀ l ∈ candidateLinks q, l ∉ bl) ∧
              normalizeWord q.word_1 ∉ be ∧ normalizeWord q.word_8 ∉ be)) ∧
          res.puzzleId = some p.id ∧ res.usedFallback = false) ∨
        ((∀ p ∈ ordered, ¬((∀ l ∈ candidateLinks p, l ∉ bl) ∧
            normalizeWord p.word_1 ∉ be ∧ normalizeWord p.word_8 ∉ be)) ∧
          res.puzzleId = (ordered.head?).map (fun p => p.id) ∧
          res.usedFallback = true)) := by
  subst hbl hbe hord
  refine ⟨rotatedPool_spec pool d hne, ?_⟩
  have hemp : ¬pool.isEmpty = true := by
    rw [List.isEmpty_eq_false.mpr hne]
    exact Bool.false_ne_true
  have hfindn : ledger.find? (fun r => r.1 = dateKey) = none :=
    (getAssignment_eq_none _ _).mp hmiss
  cases hfind : (rotatedPool pool (some d)).find?
      (fun p => !hasConflict
        (bannedLinksOf (recentPuzzles pool (recentIds ledger recentKeys)))
        (bannedEndpointsOf (recentPuzzles pool (recentIds ledger recentKeys))) p) with
  | some p =>
    have hsel : selectDaily (rotatedPool pool (some d))
        (bannedLinksOf (recentPuzzles pool (recentIds ledger recentKeys)))
        (bannedEndpointsOf (recentPuzzles pool (recentIds ledger recentKeys))) =
        (some p, false) := by
      unfold selectDaily
      rw [hfind]
    have hcomp : assignDaily pool ledger dateKey (some d) recentKeys =
        ⟨ledger ++ [(dateKey, p.id)], some p.id, false⟩ := by
      unfold assignDaily
      rw [if_neg hemp]
      simp only [hmiss, hsel]
      unfold assignAfterMiss insertIfAbsent
      rw [hfindn]
    rw [hres, hcomp]
    obtain ⟨k, hk, hpx, hprev⟩ := find?_eq_some_first _ _ _ hfind
    rw [Bool.not_eq_true'] at hpx
    refine Or.inl ⟨k, p, hk, (hasConflict_false_iff _ _ _).mp hpx, ?_, rfl, rfl⟩
    intro m hm q hq hok
    have hqf := hprev m hm q hq
    have hqc : hasConflict
        (bannedLinksOf (recentPuzzles pool (recentIds ledger recentKeys)))
        (bannedEndpointsOf (recentPuzzles pool (recentIds ledger recentKeys))) q = true := by
      cases hcq : hasConflict
          (bannedLinksOf (recentPuzzles pool (recentIds ledger recentKeys)))
          (bannedEndpointsOf (recentPuzzles pool (recentIds ledger recentKeys))) q with
      | true => rfl
      | false =>
        rw [hcq] at hqf
        exact Bool.noConfusion hqf
    have hqfalse := (hasConflict_false_iff _ _ _).mpr hok
    rw [hqfalse] at hqc
    exact Bool.noConfusion hqc
  | none =>
    have hlen : 0 < (rotatedPool pool (some d)).length := by
      rw [(rotatedPool_spec pool d hne).1]
      exact List.length_pos.mpr hne
    have hh0 : (rotatedPool pool (some d)).head? =
        some ((rotatedPool pool (some d)).get ⟨0, hlen⟩) := by
      rw [List.head?_eq_getElem?]
      exact List.getElem?_eq_getElem hlen
    have hsel : selectDaily (rotatedPool pool (some d))
        (bannedLinksOf (recentPuzzles pool (recentIds ledger recentKeys)))
        (bannedEndpointsOf (recentPuzzles pool (recentIds ledger recentKeys))) =
        (some ((rotatedPool pool (some d)).get ⟨0, hlen⟩), true) := by
      unfold selectDaily
      rw [hfind, hh0]
    have hcomp : assignDaily pool ledger dateKey (some d) recentKeys =
        ⟨ledger ++ [(dateKey, ((rotatedPool pool (some d)).get ⟨0, hlen⟩).id)],
          some ((rotatedPool pool (some d)).get ⟨0, hlen⟩).id, true⟩ := by
      unfold assignDaily
      rw [if_neg hemp]
      simp only [hmiss, hsel]
      unfold assignAfterMiss insertIfAbsent
      rw [hfindn]
    rw [hres, hcomp]
    refine Or.inr ⟨?_, by rw [hh0]; rfl, rfl⟩
    intro p hp hok
    have hnf := List.find?_eq_none.mp hfind p hp
    apply hnf
    rw [Bool.not_eq_true']
    exact (hasConflict_false_iff _ _ _).mpr hok

/-! ## Claims C4 and C5 -/

/-- Appending a row for another key preserves an existing assignment. -/
theorem getAssignment_append (ledger : Ledger) (dateKey : String) (row : String × Nat)
    (pid : Nat) (h : getAssignment ledger dateKey = some pid) :
    getAssignment (ledger ++ [row]) dateKey = some pid := by
  unfold getAssignment at h ⊢
  obtain ⟨r, hr, hr2⟩ := Option.map_eq_some'.mp h
  rw [List.find?_append, hr]
  simp [Option.or, hr2]

/-- A pool member with the sought id makes the fast-path lookup answer that
id. -/
theorem pool_lookup_id (pool : List DbPuzzle) (pid : Nat)
    (hmem : pid ∈ pool.map (fun p => p.id)) :
    (pool.find? (fun p => p.id = pid)).map (fun p => p.id) = some pid := by
  have hex : ∃ x ∈ pool, (fun p : DbPuzzle => decide (p.id = pid)) x = true := by
    obtain ⟨q, hq, hqid⟩ := List.mem_map.mp hmem
    exact ⟨q, hq, by simp [hqid]⟩
  have hisSome := List.find?_isSome.mpr hex
  obtain ⟨q', hq'⟩ := Option.isSome_iff_exists.mp hisSome
  have hq'id : q'.id = pid := by
    have := List.find?_some hq'
    simpa using this
  rw [hq']
  simp [hq'id]

/-- C4: once a `daily_puzzles` row binds `dateKey` to a pool puzzle's id,
every later daily call for `dateKey` answers that stored id from the fast
path, leaves the ledger untouched and performs no selection or fallback;
and no daily call — for any date key — ever updates or deletes the stored
row, so the binding is created at most once and is terminal. -/
theorem assign_fast_path_terminal
    (pool : List DbPuzzle) (ledger : Ledger) (dateKey dk2 : String)
    (di di2 : Option Nat) (rk rk2 : List String) (pid : Nat)
    (hstored : getAssignment ledger dateKey = some pid)
    (hmem : pid ∈ pool.map (fun p => p.id)) :
    assignDaily pool ledger dateKey di rk = ⟨ledger, some pid, false⟩ ∧
      getAssignment (assignDaily pool ledger dk2 di2 rk2).ledger dateKey = some pid := by
  have hne : pool ≠ [] := by
    intro h
    subst h
    simp at hmem
  have hemp : ¬pool.isEmpty = true := by
    rw [List.isEmpty_eq_false.mpr hne]
    exact Bool.false_ne_true
  constructor
  · unfold assignDaily
    rw [if_neg hemp]
    simp only [hstored, pool_lookup_id pool pid hmem]
  · unfold assignDaily
    rw [if_neg hemp]
    cases hga : getAssignment ledger dk2 with
    | some pid2 => simp only [hga]; exact hstored
    | none =>
      simp only [hga]
      have hfind2 : ledger.find? (fun r => r.1 = dk2) = none :=
        (getAssignment_eq_none _ _).mp hga
      cases hsel : (selectDaily (rotatedPool pool di2)
          (bannedLinksOf (recentPuzzles pool (recentIds ledger rk2)))
          (bannedEndpointsOf (recentPuzzles pool (recentIds ledger rk2)))).1 with
      | none => simp only [hsel]; exact hstored
      | some p =>
        simp only [hsel]
        unfold assignAfterMiss insertIfAbsent
        rw [hfind2]
        simp only
        exact getAssignment_append ledger dateKey (dk2, p.id) pid hstored

/-- C5: two racing daily calls for the same unassigned date key — modelled
as two serialized executions of the post-read tail, the loser's selection
and insert running against the ledger the winner committed — both answer
the winner's puzzle id, and the ledger holds exactly one row for the key:
the loser's insert is rejected, its selection discarded, and the committed
row re-read. -/
theorem assign_race_single_winner
    (pool : List DbPuzzle) (ledger0 : Ledger) (dateKey : String)
    (pidA pidB : Nat) (fbA fbB : Bool)
    (hmiss : getAssignment ledger0 dateKey = none)
    (hmem : pidA ∈ pool.map (fun p => p.id)) :
    (assignAfterMiss pool ledger0 dateKey pidA fbA).puzzleId = some pidA ∧
      (assignAfterMiss pool
        (assignAfterMiss pool ledger0 dateKey pidA fbA).ledger dateKey pidB fbB).puzzleId =
        some pidA ∧
      (assignAfterMiss pool
        (assignAfterMiss pool ledger0 dateKey pidA fbA).ledger dateKey pidB fbB).ledger =
        (assignAfterMiss pool ledger0 dateKey pidA fbA).ledger ∧
      ((assignAfterMiss pool
        (assignAfterMiss pool ledger0 dateKey pidA fbA).ledger dateKey pidB fbB).ledger.filter
          (fun r => r.1 = dateKey)).length = 1 := by
  have hfindn : ledger0.find? (fun r => r.1 = dateKey) = none :=
    (getAssignment_eq_none _ _).mp hmiss
  have hA : assignAfterMiss pool ledger0 dateKey pidA fbA =
      ⟨ledger0 ++ [(dateKey, pidA)], some pidA, fbA⟩ := by
    unfold assignAfterMiss insertIfAbsent
    rw [hfindn]
  have hfindA : (ledger0 ++ [(dateKey, pidA)]).find? (fun r => r.1 = dateKey) =
      some (dateKey, pidA) := by
    rw [List.find?_append, hfindn]
    simp [Option.or]
  have hgaA : getAssignment (ledger0 ++ [(dateKey, pidA)]) dateKey = some pidA := by
    unfold getAssignment
    rw [hfindA]
    rfl
  have hB : assignAfterMiss pool (ledger0 ++ [(dateKey, pidA)]) dateKey pidB fbB =
      ⟨ledger0 ++ [(dateKey, pidA)],
        (pool.find? (fun q => q.id = pidA)).map (fun q => q.id), fbB⟩ := by
    unfold assignAfterMiss insertIfAbsent
    rw [hfindA]
    simp only [hgaA]
  have hBledger : (assignAfterMiss pool ledger0 dateKey pidA fbA).ledger =
      ledger0 ++ [(dateKey, pidA)] := by
    rw [hA]
  have c1 : (assignAfterMiss pool ledger0 dateKey pidA fbA).puzzleId = some pidA := by
    rw [hA]
  have c2 : (assignAfterMiss pool
      (assignAfterMiss pool ledger0 dateKey pidA fbA).ledger dateKey pidB fbB).puzzleId =
      some pidA := by
    rw [hBledger, hB]
    exact pool_lookup_id pool pidA hmem
  have c3 : (assignAfterMiss pool
      (assignAfterMiss pool ledger0 dateKey pidA fbA).ledger dateKey pidB fbB).ledger =
      (assignAfterMiss pool ledger0 dateKey pidA fbA).ledger := by
    rw [hBledger, hB]
  have c4 : ((assignAfterMiss pool
      (assignAfterMiss pool ledger0 dateKey pidA fbA).ledger dateKey pidB fbB).ledger.filter
        (fun r => r.1 = dateKey)).length = 1 := by
    rw [hBledger, hB]
    show ((ledger0 ++ [(dateKey, pidA)]).filter (fun r => r.1 = dateKey)).length = 1
    rw [List.filter_append]
    have h0 : ledger0.filter (fun r => r.1 = dateKey) = [] := by
      rw [List.filter_eq_nil_iff]
      intro a ha
      have := List.find?_eq_none.mp hfindn a ha
      simpa using this
    rw [h0]
    simp
  exact ⟨c1, c2, c3, c4⟩

theorem dailyAssign_rotation_and_guard_witness :
    (rotatedPool [samplePuzzleA, samplePuzzleB] (some 19787)).length =
      ([samplePuzzleA, samplePuzzleB] : List DbPuzzle).length :=
  (dailyAssign_rotation_and_guard [samplePuzzleA, samplePuzzleB] [] "2024-03-05" 19787 []
    _ _ _ _ (by decide) (by decide) rfl rfl rfl rfl rfl).1.1

theorem assign_fast_path_terminal_witness :
    assignDaily [samplePuzzleA] [("2024-03-05", 1)] "2024-03-05" (some 19787) [] =
        ⟨[("2024-03-05", 1)], some 1, false⟩ ∧
      getAssignment (assignDaily [samplePuzzleA] [("2024-03-05", 1)] "2024-03-06"
        (some 19788) []).ledger "2024-03-05" = some 1 :=
  assign_fast_path_terminal [samplePuzzleA] [("2024-03-05", 1)] "2024-03-05" "2024-03-06"
    (some 19787) (some 19788) [] [] 1 (by decide) (by decide)

theorem assign_race_single_winner_witness :
    (assignAfterMiss [samplePuzzleA] [] "2024-03-05" 1 false).puzzleId = some 1 ∧
      (assignAfterMiss [samplePuzzleA]
        (assignAfterMiss [samplePuzzleA] [] "2024-03-05" 1 false).ledger "2024-03-05" 1
          false).puzzleId = some 1 ∧
      (assignAfterMiss [samplePuzzleA]
        (assignAfterMiss [samplePuzzleA] [] "2024-03-05" 1 false).ledger "2024-03-05" 1
          false).ledger = (assignAfterMiss [samplePuzzleA] [] "2024-03-05" 1 false).ledger ∧
      ((assignAfterMiss [samplePuzzleA]
        (assignAfterMiss [samplePuzzleA] [] "2024-03-05" 1 false).ledger "2024-03-05" 1
          false).ledger.filter (fun r => r.1 = "2024-03-05")).length = 1 :=
  assign_race_single_winner [samplePuzzleA] [] "2024-03-05" 1 1 false false (by decide)
    (by decide)

/-! ## Validator lemmas -/

/-- The errors component of `validateRow`, segment by segment. -/
theorem validateRow_fst (row : PuzzleRow) : (validateRow row).1 =
    (if ((chainWords row).filter (fun w => !isNonEmpty w)).length ≠ 0
      then [Vmsg.missingChain] else []) ++
    (if (normalizedChainOf row).dedup.length ≠ (normalizedChainOf row).length
      then [Vmsg.dupChain] else []) ++
    (if (normalizedDummyOf row).dedup.length ≠ (normalizedDummyOf row).length
      then [Vmsg.dupDummy] else []) ++
    ((chainWords row).filterMap (fun w =>
      if isNonEmpty w && !isSingleWord w then some (Vmsg.chainNotSingle w) else none)) ++
    ((dummyWords row).filterMap (fun w =>
      if isNonEmpty w && !isSingleWord w then some (Vmsg.dummyNotSingle w) else none)) ++
    (if (overlapWords row).length ≠ 0
      then [Vmsg.dummyChainOverlap (overlapWords row)] else []) ++
    (if (fusedOverlapWords row).length ≠ 0
      then [Vmsg.dummyFusedOverlap (fusedOverlapWords row)] else []) := rfl

/-- The warnings component of `validateRow`, segment by segment. -/
theorem validateRow_snd (row : PuzzleRow) : (validateRow row).2 =
    ((chainWords row).filterMap (fun w =>
      if isNonEmpty w && isSingleWord w && !isTitleCase w
      then some (Vmsg.chainNotTitle w) else none)) ++
    ((dummyWords row).filterMap (fun w =>
      if isNonEmpty w && isSingleWord w && !isTitleCase w
      then some (Vmsg.dummyNotTitle w) else none)) ++
    (if !(["GREEN", "BLUE", "PURPLE", "EASY", "MEDIUM", "HARD"].contains row.difficulty)
      then [Vmsg.badDifficulty row.difficulty] else []) ++
    (qaLinks row).enum.flatMap (linkChecks row) := rfl

/-- Adjacent pairs of a list are its zip with its tail, indexwise. -/
theorem mem_zip_tail {α : Type} (l : List α) (p : α × α) :
    p ∈ l.zip l.tail ↔ ∃ i : Nat, l[i]? = some p.1 ∧ l[i + 1]? = some p.2 := by
  rw [List.mem_iff_getElem?]
  constructor
  · rintro ⟨i, hi⟩
    rw [List.getElem?_zip_eq_some] at hi
    refine ⟨i, hi.1, ?_⟩
    rw [← List.getElem?_tail]
    exact hi.2
  · rintro ⟨i, h1, h2⟩
    refine ⟨i, List.getElem?_zip_eq_some.mpr ⟨h1, ?_⟩⟩
    rw [List.getElem?_tail]
    exact h2

theorem dedup_length_iff {α : Type} [DecidableEq α] (l : List α) :
    l.dedup.length = l.length ↔ l.Nodup := by
  constructor
  · intro h
    rw [← List.dedup_eq_self]
    exact (List.dedup_sublist l).eq_of_length h
  · intro h
    rw [List.dedup_eq_self.mpr h]

/-! ## Claim C7 -/

/-- C7: with all 8 chain and 10 dummy words present, the validator's three
separate checks — duplicate chain words, duplicate dummy words, dummy/chain
overlap — are all silent exactly when the 18 normalized words of the union
of chain and dummy contain no repeated value. -/
theorem duplicate_checks_iff_union_nodup (row : PuzzleRow)
    (hall : ∀ w ∈ chainWords row ++ dummyWords row, isNonEmpty w = true) :
    (Vmsg.dupChain ∉ (validateRow row).1 ∧ Vmsg.dupDummy ∉ (validateRow row).1 ∧
      Vmsg.dummyChainOverlap (overlapWords row) ∉ (validateRow row).1) ↔
      ((chainWords row).map normalizeWord ++ (dummyWords row).map normalizeWord).Nodup := by
  have hfc : (chainWords row).filter isNonEmpty = chainWords row :=
    List.filter_eq_self.mpr (fun a ha => hall a (List.mem_append_left _ ha))
  have hfd : (dummyWords row).filter isNonEmpty = dummyWords row :=
    List.filter_eq_self.mpr (fun a ha => hall a (List.mem_append_right _ ha))
  have hnc : normalizedChainOf row = (chainWords row).map normalizeWord := by
    unfold normalizedChainOf
    rw [hfc]
  have hnd : normalizedDummyOf row = (dummyWords row).map normalizeWord := by
    unfold normalizedDummyOf
    rw [hfd]
  have hdupChain : Vmsg.dupChain ∈ (validateRow row).1 ↔
      (normalizedChainOf row).dedup.length ≠ (normalizedChainOf row).length := by
    rw [validateRow_fst]
    simp [mem_ite_singleton, List.mem_filterMap, Option.ite_none_right_eq_some]
  have hdupDummy : Vmsg.dupDummy ∈ (validateRow row).1 ↔
      (normalizedDummyOf row).dedup.length ≠ (normalizedDummyOf row).length := by
    rw [validateRow_fst]
    simp [mem_ite_singleton, List.mem_filterMap, Option.ite_none_right_eq_some]
  have hoverlap : Vmsg.dummyChainOverlap (overlapWords row) ∈ (validateRow row).1 ↔
      (overlapWords row).length ≠ 0 := by
    rw [validateRow_fst]
    simp [mem_ite_singleton, List.mem_filterMap, Option.ite_none_right_eq_some]
  have c1 : Vmsg.dupChain ∉ (validateRow row).1 ↔
      ((chainWords row).map normalizeWord).Nodup := by
    rw [hdupChain, not_ne_iff, hnc, dedup_length_iff]
  have c2 : Vmsg.dupDummy ∉ (validateRow row).1 ↔
      ((dummyWords row).map normalizeWord).Nodup := by
    rw [hdupDummy, not_ne_iff, hnd, dedup_length_iff]
  have c3 : Vmsg.dummyChainOverlap (overlapWords row) ∉ (validateRow row).1 ↔
      ∀ a ∈ (dummyWords row).map normalizeWord, a ∉ (chainWords row).map normalizeWord := by
    rw [hoverlap, not_ne_iff, List.length_eq_zero]
    unfold overlapWords
    rw [List.filter_eq_nil_iff, hnc, hnd]
    constructor
    · intro h a ha hmem
      exact h a ha (by simpa [List.mem_dedup] using hmem)
    · intro h a ha hmem
      exact h a ha (by simpa [List.mem_dedup] using hmem)
  rw [c1, c2, c3, List.nodup_append]
  constructor
  · rintro ⟨h1, h2, h3⟩
    exact ⟨h1, h2, List.disjoint_right.mpr h3⟩
  · rintro ⟨h1, h2, h3⟩
    exact ⟨h1, h2, fun a ha hc => List.disjoint_right.mp h3 ha hc⟩

theorem duplicate_checks_iff_union_nodup_witness :
    (Vmsg.dupChain ∉ (validateRow rowLinkFoo).1 ∧ Vmsg.dupDummy ∉ (validateRow rowLinkFoo).1 ∧
      Vmsg.dummyChainOverlap (overlapWords rowLinkFoo) ∉ (validateRow rowLinkFoo).1) ↔
      ((chainWords rowLinkFoo).map normalizeWord ++
        (dummyWords rowLinkFoo).map normalizeWord).Nodup :=
  duplicate_checks_iff_union_nodup rowLinkFoo (by decide)

/-! ## Claim C6 -/

/-- The fused-overlap list is non-empty exactly when some present dummy
word's normalized form equals the normalization of the raw concatenation of
an adjacent pair of present chain words. -/
theorem fusedOverlapWords_ne_nil_iff (row : PuzzleRow) :
    fusedOverlapWords row ≠ [] ↔
      ∃ d ∈ dummyWords row, isNonEmpty d = true ∧
        ∃ i : Nat, ∃ left right : String,
          (chainWords row)[i]? = some left ∧ (chainWords row)[i + 1]? = some right ∧
          isNonEmpty left = true ∧ isNonEmpty right = true ∧
          normalizeWord d = normalizeWord (left ++ right) := by
  unfold fusedOverlapWords
  rw [Ne, List.filter_eq_nil_iff]
  push_neg
  constructor
  · rintro ⟨a, ha, hpa⟩
    obtain ⟨d, hd, hdn, hda⟩ : ∃ d ∈ dummyWords row, isNonEmpty d = true ∧
        normalizeWord d = a := by
      unfold normalizedDummyOf at ha
      obtain ⟨x, hx, hxa⟩ := List.mem_map.mp ha
      obtain ⟨hxd, hxne⟩ := List.mem_filter.mp hx
      exact ⟨x, hxd, hxne, hxa⟩
    have ham : a ∈ fusedPairsOf row := by
      simpa [List.mem_dedup] using hpa
    unfold fusedPairsOf at ham
    obtain ⟨p, hp, hpe⟩ := List.mem_filterMap.mp ham
    rw [Option.ite_none_right_eq_some] at hpe
    obtain ⟨hcond, hsome⟩ := hpe
    simp only [Option.some_inj] at hsome
    obtain ⟨i, h1, h2⟩ := (mem_zip_tail _ _).mp hp
    rw [Bool.and_eq_true] at hcond
    exact ⟨d, hd, hdn, i, p.1, p.2, h1, h2, hcond.1, hcond.2, by rw [hda, hsome]⟩
  · rintro ⟨d, hd, hdn, i, left, right, h1, h2, hne1, hne2, heq⟩
    refine ⟨normalizeWord d, ?_, ?_⟩
    · unfold normalizedDummyOf
      exact List.mem_map.mpr ⟨d, List.mem_filter.mpr ⟨hd, hdn⟩, rfl⟩
    · have hmemf : normalizeWord d ∈ fusedPairsOf row := by
        unfold fusedPairsOf
        refine List.mem_filterMap.mpr ⟨(left, right), (mem_zip_tail _ _).mpr ⟨i, h1, h2⟩, ?_⟩
        rw [Option.ite_none_right_eq_some]
        refine ⟨by rw [Bool.and_eq_true]; exact ⟨hne1, hne2⟩, by rw [heq]⟩
      simpa [List.mem_dedup] using hmemf

/-- C6 amended: the validator reports the anti-leak hard error exactly when
some present dummy word's normalized form equals
`normalizeWord(chain[i] ++ chain[i+1])` — the normalization of the *raw*
concatenation — for some adjacent pair of present chain words (not the
concatenation of the two words' normalized forms, which differs when a
chain word carries edge whitespace). -/
theorem fusedLeak_error_iff_raw_concat (row : PuzzleRow) :
    (∃ ws, Vmsg.dummyFusedOverlap ws ∈ (validateRow row).1) ↔
      ∃ d ∈ dummyWords row, isNonEmpty d = true ∧
        ∃ i : Nat, ∃ left right : String,
          (chainWords row)[i]? = some left ∧ (chainWords row)[i + 1]? = some right ∧
          isNonEmpty left = true ∧ isNonEmpty right = true ∧
          normalizeWord d = normalizeWord (left ++ right) := by
  rw [← fusedOverlapWords_ne_nil_iff]
  constructor
  · rintro ⟨ws, hws⟩
    rw [validateRow_fst] at hws
    simp [mem_ite_singleton, List.mem_filterMap, Option.ite_none_right_eq_some] at hws
    exact hws.1
  · intro hne
    refine ⟨fusedOverlapWords row, ?_⟩
    rw [validateRow_fst]
    have hlen : (fusedOverlapWords row).length ≠ 0 := by
      intro h0
      exact hne (List.length_eq_zero.mp h0)
    simp [mem_ite_singleton, hlen]

/-- C6 counterexample: with `chain[0] = "Key "` (trailing space),
`chain[1] = "Chain"` and the dummy `"Keychain"`, the dummy's normalized form
equals the concatenation of the two adjacent chain words' *normalized* forms
(`"key" ++ "chain"`), yet the validator reports no hard error at all: it
fuses the raw strings first (`normalizeWord "Key Chain" = "key chain"`). -/
theorem fusedLeak_normalized_concat_counterexample :
    (validateRow rowFusedConcat).1 = [] ∧
      rowFusedConcat.dummy_1 ∈ dummyWords rowFusedConcat ∧
      isNonEmpty rowFusedConcat.dummy_1 = true ∧
      normalizeWord rowFusedConcat.dummy_1 =
        normalizeWord rowFusedConcat.word_1 ++ normalizeWord rowFusedConcat.word_2 := by
  decide

/-! ## Claim C3 -/

/-- Inversion for one link's checks: any finding carries that link's index
and text, requires the link and both adjacent chain words present, and is
one of the three warning kinds with its condition. -/
theorem mem_linkChecks_inv (row : PuzzleRow) (a : Nat) (b : String) (m : Vmsg)
    (hm : m ∈ linkChecks row (a, b)) :
    isNonEmpty b = true ∧
      ∃ left right : String, (chainWords row)[a]? = some left ∧
        (chainWords row)[a + 1]? = some right ∧
        isNonEmpty left = true ∧ isNonEmpty right = true ∧
        ((m = Vmsg.linkMismatch a b ∧ normalizeLink b ≠ makePair left right) ∨
          (m = Vmsg.linkNotLowercase a ∧ b ≠ jsToLower b) ∨
          (m = Vmsg.linkHyphen a ∧ b.toList.contains '-' = true)) := by
  unfold linkChecks at hm
  by_cases hb : isNonEmpty b = true
  case neg => simp [hb] at hm
  case pos =>
    refine ⟨hb, ?_⟩
    cases hL : (chainWords row)[a]? with
    | none => simp [hb, hL] at hm
    | some left =>
      cases hR : (chainWords row)[a + 1]? with
      | none => simp [hb, hL, hR] at hm
      | some right =>
        by_cases h1 : isNonEmpty left = true
        case neg => simp [hb, hL, hR, h1] at hm
        case pos =>
          by_cases h2 : isNonEmpty right = true
          case neg => simp [hb, hL, hR, h1, h2] at hm
          case pos =>
            refine ⟨left, right, rfl, rfl, h1, h2, ?_⟩
            simp only [hb, hL, hR, h1, h2, Bool.not_true, Bool.false_eq_true, if_false,
              Bool.or_self, List.mem_append, mem_ite_singleton] at hm
            rcases hm with (h | h) | h
            · exact Or.inl ⟨h.2, h.1⟩
            · exact Or.inr (Or.inl ⟨h.2, h.1⟩)
            · exact Or.inr (Or.inr ⟨h.2, h.1⟩)

/-- The checks of a link whose guards all pass, in push order. -/
theorem linkChecks_eq (row : PuzzleRow) (a : Nat) (b left right : String)
    (hL : (chainWords row)[a]? = some left) (hR : (chainWords row)[a + 1]? = some right)
    (hb : isNonEmpty b = true) (h1 : isNonEmpty left = true)
    (h2 : isNonEmpty right = true) :
    linkChecks row (a, b) =
      (if normalizeLink b ≠ makePair left right then [Vmsg.linkMismatch a b] else []) ++
      (if b ≠ jsToLower b then [Vmsg.linkNotLowercase a] else []) ++
      (if b.toList.contains '-' then [Vmsg.linkHyphen a] else []) := by
  unfold linkChecks
  simp only [hb, hL, hR, h1, h2, Bool.not_true, Bool.false_eq_true, if_false, Bool.or_self]

/-- C3 amended: the link rules are soft. For a present link with both
adjacent chain words present, the validator emits a warning — never a hard
error — for link position `i` exactly when `normalizeLink(link[i])` differs
from the normalized two-word phrase `chain[i] + " " + chain[i+1]` (the fused
compound form is *not* accepted and draws the same warning), plus separate
warnings exactly when the link is not lowercase as authored or contains a
hyphen; no link finding is ever a hard error. -/
theorem link_rules_are_warnings (row : PuzzleRow) (i : Nat) (link left right : String)
    (hq : (qaLinks row)[i]? = some link)
    (hl : (chainWords row)[i]? = some left)
    (hr : (chainWords row)[i + 1]? = some right)
    (hnl : isNonEmpty link = true)
    (hne1 : isNonEmpty left = true)
    (hne2 : isNonEmpty right = true) :
    (Vmsg.linkMismatch i link ∈ (validateRow row).2 ↔
      normalizeLink link ≠ makePair left right) ∧
    (Vmsg.linkNotLowercase i ∈ (validateRow row).2 ↔ link ≠ jsToLower link) ∧
    (Vmsg.linkHyphen i ∈ (validateRow row).2 ↔ link.toList.contains '-' = true) ∧
    (∀ j : Nat, ∀ s : String, Vmsg.linkMismatch j s ∉ (validateRow row).1 ∧
      Vmsg.linkNotLowercase j ∉ (validateRow row).1 ∧
      Vmsg.linkHyphen j ∉ (validateRow row).1) := by
  have hWmem : ∀ m : Vmsg, m ∈ (validateRow row).2 ↔
      (m ∈ ((chainWords row).filterMap (fun w =>
        if isNonEmpty w && isSingleWord w && !isTitleCase w
        then some (Vmsg.chainNotTitle w) else none)) ∨
       m ∈ ((dummyWords row).filterMap (fun w =>
        if isNonEmpty w && isSingleWord w && !isTitleCase w
        then some (Vmsg.dummyNotTitle w) else none)) ∨
       m ∈ (if !(["GREEN", "BLUE", "PURPLE", "EASY", "MEDIUM", "HARD"].contains
          row.difficulty) then [Vmsg.badDifficulty row.difficulty] else []) ∨
       m ∈ (qaLinks row).enum.flatMap (linkChecks row)) := by
    intro m
    rw [validateRow_snd]
    simp [or_assoc]
  have hqmem : (i, link) ∈ (qaLinks row).enum := List.mem_enum_iff_getElem?.mpr hq
  have hchecks := linkChecks_eq row i link left right hl hr hnl hne1 hne2
  refine ⟨?_, ?_, ?_, ?_⟩
  · rw [hWmem]
    constructor
    · rintro (h | h | h | h)
      · simp [List.mem_filterMap, Option.ite_none_right_eq_some] at h
      · simp [List.mem_filterMap, Option.ite_none_right_eq_some] at h
      · simp [mem_ite_singleton] at h
      · obtain ⟨iv, hiv, hmem⟩ := List.mem_flatMap.mp h
        obtain ⟨a, b⟩ := iv
        obtain ⟨hb, left', right', hL', hR', h1', h2', hkind⟩ :=
          mem_linkChecks_inv row a b _ hmem
        rcases hkind with ⟨heq, hcond⟩ | ⟨heq, hcond⟩ | ⟨heq, hcond⟩
        · injection heq with hia hlb
          subst hia
          subst hlb
          rw [hl] at hL'
          rw [hr] at hR'
          injection hL' with he1
          injection hR' with he2
          subst he1
          subst he2
          exact hcond
        · exact Vmsg.noConfusion heq
        · exact Vmsg.noConfusion heq
    · intro hcond
      refine Or.inr (Or.inr (Or.inr (List.mem_flatMap.mpr ⟨(i, link), hqmem, ?_⟩)))
      rw [hchecks]
      simp [mem_ite_singleton, hcond]
  · rw [hWmem]
    constructor
    · rintro (h | h | h | h)
      · simp [List.mem_filterMap, Option.ite_none_right_eq_some] at h
      · simp [List.mem_filterMap, Option.ite_none_right_eq_some] at h
      · simp [mem_ite_singleton] at h
      · obtain ⟨iv, hiv, hmem⟩ := List.mem_flatMap.mp h
        obtain ⟨a, b⟩ := iv
        obtain ⟨hb, left', right', hL', hR', h1', h2', hkind⟩ :=
          mem_linkChecks_inv row a b _ hmem
        rcases hkind with ⟨heq, hcond⟩ | ⟨heq, hcond⟩ | ⟨heq, hcond⟩
        · exact Vmsg.noConfusion heq
        · injection heq with hia
          subst hia
          have hb' := List.mem_enum_iff_getElem?.mp hiv
          simp only at hb'
          rw [hq] at hb'
          injection hb' with hbl
          subst hbl
          exact hcond
        · exact Vmsg.noConfusion heq
    · intro hcond
      refine Or.inr (Or.inr (Or.inr (List.mem_flatMap.mpr ⟨(i, link), hqmem, ?_⟩)))
      rw [hchecks]
      simp [mem_ite_singleton, hcond]
  · rw [hWmem]
    constructor
    · rintro (h | h | h | h)
      · simp [List.mem_filterMap, Option.ite_none_right_eq_some] at h
      · simp [List.mem_filterMap, Option.ite_none_right_eq_some] at h
      · simp [mem_ite_singleton] at h
      · obtain ⟨iv, hiv, hmem⟩ := List.mem_flatMap.mp h
        obtain ⟨a, b⟩ := iv
        obtain ⟨hb, left', right', hL', hR', h1', h2', hkind⟩ :=
          mem_linkChecks_inv row a b _ hmem
        rcases hkind with ⟨heq, hcond⟩ | ⟨heq, hcond⟩ | ⟨heq, hcond⟩
        · exact Vmsg.noConfusion heq
        · exact Vmsg.noConfusion heq
        · injection heq with hia
          subst hia
          have hb' := List.mem_enum_iff_getElem?.mp hiv
          simp only at hb'
          rw [hq] at hb'
          injection hb' with hbl
          subst hbl
          exact hcond
    · intro hcond
      refine Or.inr (Or.inr (Or.inr (List.mem_flatMap.mpr ⟨(i, link), hqmem, ?_⟩)))
      rw [hchecks]
      simp only [List.mem_append, mem_ite_singleton]
      exact Or.inr ⟨hcond, by trivial⟩
  · intro j s
    refine ⟨?_, ?_, ?_⟩ <;>
      · rw [validateRow_fst]
        simp [mem_ite_singleton, List.mem_filterMap, Option.ite_none_right_eq_some]

/-- C3 counterexample: `rowLinkFoo` authors link 0 as `"foo"`, which matches
neither the fused form `"keychain"` nor the two-word form `"key chain"`, is
lowercase and hyphen-free — the claim then demands a hard error for link 0 —
yet the validator's error list is empty: the mismatch is only a warning. -/
theorem link_rule_no_hard_error_counterexample :
    (validateRow rowLinkFoo).1 = [] ∧
      Vmsg.linkMismatch 0 "foo" ∈ (validateRow rowLinkFoo).2 ∧
      normalizeLink rowLinkFoo.qa_link_1 ≠
        normalizeWord rowLinkFoo.word_1 ++ normalizeWord rowLinkFoo.word_2 ∧
      normalizeLink rowLinkFoo.qa_link_1 ≠
        normalizeWord rowLinkFoo.word_1 ++ " " ++ normalizeWord rowLinkFoo.word_2 ∧
      rowLinkFoo.qa_link_1 = jsToLower rowLinkFoo.qa_link_1 ∧
      rowLinkFoo.qa_link_1.toList.contains '-' = false := by
  decide

theorem link_rules_are_warnings_witness :
    Vmsg.linkMismatch 0 "foo" ∈ (validateRow rowLinkFoo).2 ↔
      normalizeLink "foo" ≠ makePair "Key" "Chain" :=
  (link_rules_are_warnings rowLinkFoo 0 "foo" "Key" "Chain" (by decide) (by decide)
    (by decide) (by decide) (by decide) (by decide)).1

end WordChains
